import Mathlib

/-!
# Verification of the adaptive LSB steganography codec (`main.py`)

Shallow embedding of the pure parts of the codec in `src/main.py`:
bit I/O, redundancy coding, the edge-depth map policy, the keyed-order
embed/extract engine, inner-payload parsing, and the integer metrics.

Modelling conventions:

* `uint8` channel values are `Nat` (all source values are `< 256`; the
  arithmetic below matches the source's on that range).
* Bit arrays (`np.uint8` arrays of 0/1 produced by `np.unpackbits`) are
  `List Bool`.
* External library primitives that the codec only calls as black boxes
  (SHA-256, the NumPy PCG64 shuffle, `zlib`, UTF-8 lossy decoding, the
  CV_64F Laplacian normalization) are abstract parameters; everything the
  repository itself computes is defined concretely.
-/

namespace Steg

/-- `REDUNDANCY = 3` from `main.py`. -/
def REDUNDANCY : Nat := 3

/-- `HEADER_LEN = struct.calcsize(">4sI16s12s") = 36` from `main.py`. -/
def HEADER_LEN : Nat := 36

/-- A byte as 8 bits MSB-first, as `np.unpackbits` produces for one byte:
bit `j` of the output is bit `7 - j` of the byte. -/
def byteBits (b : Nat) : List Bool :=
  (List.range 8).reverse.map (fun j => Nat.testBit b j)

/-- `bits_from_bytes(data)`: `np.unpackbits` over the byte string, i.e. each
byte mapped to its 8 bits MSB-first, concatenated. -/
def bits_from_bytes (data : List Nat) : List Bool :=
  data.flatMap byteBits

/-- `np.repeat(bits, REDUNDANCY)`: each source bit repeated `REDUNDANCY`
times consecutively (`encoded_bits` in `embed_bits`). -/
def expandRedundancy (bits : List Bool) : List Bool :=
  bits.flatMap (List.replicate REDUNDANCY)

/-- Number of `true`s among a row of three raw bits (`np.sum(blocks, axis=1)`
for one row, the raw bits being 0/1). -/
def voteCount (x y z : Bool) : Nat :=
  (cond x 1 0) + (cond y 1 0) + (cond z 1 0)

/-- `decode_redundancy(raw_bits)`: truncate to a multiple of `REDUNDANCY = 3`
(the `_ => []` fallthrough drops a trailing partial row, as the source's
slice `raw_bits[: len - len % 3]` does), fold into rows of 3 and emit the
majority vote `votes >= REDUNDANCY // 2 + 1`, i.e. at least 2 ones. -/
def decode_redundancy : List Bool → List Bool
  | x :: y :: z :: rest =>
      decide (REDUNDANCY / 2 + 1 ≤ voteCount x y z) :: decode_redundancy rest
  | _ => []

/-- The corruption relation of claim C5: `raw` is `expandRedundancy b` with,
for each source bit, at most one of its three consecutive raw copies
flipped. -/
def atMostOneFlipPerTriple : List Bool → List Bool → Bool
  | [], [] => true
  | x :: y :: z :: raw, b :: bs =>
      decide ((cond (x ≠ b) 1 0) + (cond (y ≠ b) 1 0) + (cond (z ≠ b) 1 0) ≤ 1)
        && atMostOneFlipPerTriple raw bs
  | _, _ => false

theorem decode_expand (b : List Bool) :
    decode_redundancy (expandRedundancy b) = b := by
  induction b with
  | nil => rfl
  | cons x bs ih =>
      have hexp : expandRedundancy (x :: bs) = x :: x :: x :: expandRedundancy bs := by
        simp [expandRedundancy, REDUNDANCY, List.replicate]
      rw [hexp, decode_redundancy, ih]
      cases x <;> rfl

theorem decode_corrupted (b : List Bool) :
    ∀ raw, atMostOneFlipPerTriple raw b = true → decode_redundancy raw = b := by
  induction b with
  | nil =>
      intro raw h
      match raw with
      | [] => rfl
      | [_] => simp [atMostOneFlipPerTriple] at h
      | [_, _] => simp [atMostOneFlipPerTriple] at h
      | _ :: _ :: _ :: _ => simp [atMostOneFlipPerTriple] at h
  | cons bb bs ih =>
      intro raw h
      match raw with
      | [] => simp [atMostOneFlipPerTriple] at h
      | [_] => simp [atMostOneFlipPerTriple] at h
      | [_, _] => simp [atMostOneFlipPerTriple] at h
      | x :: y :: z :: rest =>
          have h' := h
          simp only [atMostOneFlipPerTriple, Bool.and_eq_true] at h'
          obtain ⟨h1, h2⟩ := h'
          have hmaj : decide (REDUNDANCY / 2 + 1 ≤ voteCount x y z) = bb := by
            cases bb <;> cases x <;> cases y <;> cases z <;>
              simp_all [voteCount, REDUNDANCY]
          simp [decode_redundancy, hmaj, ih rest h2]

/-- **C5.** Redundancy coding: decoding the triple-repetition expansion with
majority vote returns the source bits, and decoding still returns the source
bits when, for each source bit, at most one of its three consecutive raw
copies has been flipped. -/
theorem redundancy_roundtrip_and_tolerance (b raw : List Bool)
    (h : atMostOneFlipPerTriple raw b = true) :
    decode_redundancy (expandRedundancy b) = b ∧ decode_redundancy raw = b :=
  ⟨decode_expand b, decode_corrupted b raw h⟩

/-- Witness for C5 at a concrete input: source bits `[true, false, true]`,
raw stream with one copy flipped inside the first and last triples. -/
theorem redundancy_roundtrip_and_tolerance_witness :
    decode_redundancy (expandRedundancy [true, false, true])
        = [true, false, true] ∧
      decode_redundancy
        [false, true, true, false, false, false, true, true, false]
        = [true, false, true] :=
  redundancy_roundtrip_and_tolerance [true, false, true]
    [false, true, true, false, false, false, true, true, false] (by decide)

/-! ## Edge-depth map (`compute_edge_depth_map`) -/

/-- `compute_edge_depth_map(arr)`, per flattened pixel index. The grayscale
conversion, `cv2.Laplacian`, absolute value and division by `max + 1e-6`
are the abstract parameter `norm` (the normalized CV_64F Laplacian
magnitude, modelled over `ℚ`); the policy itself is the source's
`np.where(norm > 0.25, 2, 1)`. -/
def compute_edge_depth_map (norm : Nat → ℚ) (i : Nat) : Nat :=
  if norm i > 1/4 then 2 else 1

/-- **C4.** Depth-map range: every pixel's depth is 1 or 2 — 2 exactly when
the normalized Laplacian magnitude exceeds 0.25, else 1 — so no pixel has
depth 0 and the guard `depth <= 0` of the `continue` branch in `embed_bits`
and `extract_bits` is false at every pixel. -/
theorem depth_map_range (norm : Nat → ℚ) (i : Nat) :
    (compute_edge_depth_map norm i = 1 ∨ compute_edge_depth_map norm i = 2) ∧
      (compute_edge_depth_map norm i = 2 ↔ norm i > 1/4) ∧
      ¬ compute_edge_depth_map norm i ≤ 0 := by
  unfold compute_edge_depth_map
  split
  next h => exact ⟨Or.inr rfl, ⟨fun _ => h, fun _ => rfl⟩, by omega⟩
  next h =>
    exact ⟨Or.inl rfl, ⟨fun hc => absurd hc (by decide), fun hh => absurd hh h⟩,
      by omega⟩

/-! ## Inner payload parsing (`parse_inner_payload`) -/

/-- Error kinds of `parse_inner_payload` (its two `ValueError`s, named after
the spec's taxonomy, plus the `zlib.error` branch). -/
inductive InnerError
  | PayloadMalformed
  | DecompressError
deriving DecidableEq

/-- `struct.unpack(">32sH", payload[:34])`'s second field: the big-endian
16-bit `name_len` read from bytes 32 and 33. -/
def innerNameLen (payload : List Nat) : Nat :=
  256 * payload.getD 32 0 + payload.getD 33 0

/-- `parse_inner_payload(payload)`. `decompress` abstracts `zlib.decompress`
(`none` exactly when its input is not valid DEFLATE, in which case the
source raises, here `DecompressError`); `decodeName` abstracts the total
function `bytes.decode("utf-8", errors="replace")` (lossy replacement never
raises). Returns `(data_hash, name, data)` on success. -/
def parse_inner_payload (decompress : List Nat → Option (List Nat))
    (decodeName : List Nat → String) (payload : List Nat) :
    Except InnerError (List Nat × String × List Nat) :=
  if payload.length < 34 then .error .PayloadMalformed
  else
    let data_hash := payload.take 32
    let name_len := innerNameLen payload
    if 34 + name_len > payload.length then .error .PayloadMalformed
    else
      let name := decodeName ((payload.drop 34).take name_len)
      match decompress (payload.drop (34 + name_len)) with
      | none => .error .DecompressError
      | some data => .ok (data_hash, name, data)

/-- **C7.** `parse_inner_payload` fails with `PayloadMalformed` exactly when
`len(p) < 34` or `34 + name_len > len(p)`; otherwise (the name having been
decoded by the total lossy UTF-8 decoder) it fails with `DecompressError`
exactly when the tail after the name is not valid DEFLATE, and succeeds
otherwise. -/
theorem parse_inner_error_conditions (decompress : List Nat → Option (List Nat))
    (decodeName : List Nat → String) (p : List Nat) :
    (parse_inner_payload decompress decodeName p = .error .PayloadMalformed ↔
        p.length < 34 ∨ 34 + innerNameLen p > p.length) ∧
      (parse_inner_payload decompress decodeName p = .error .DecompressError ↔
        ¬ (p.length < 34 ∨ 34 + innerNameLen p > p.length) ∧
          decompress (p.drop (34 + innerNameLen p)) = none) ∧
      ((parse_inner_payload decompress decodeName p).isOk = true ↔
        ¬ (p.length < 34 ∨ 34 + innerNameLen p > p.length) ∧
          (decompress (p.drop (34 + innerNameLen p))).isSome = true) := by
  unfold parse_inner_payload
  by_cases h1 : p.length < 34
  · simp [h1, Except.isOk, Except.toBool]
  · by_cases h2 : 34 + innerNameLen p > p.length
    · simp [h1, h2, Except.isOk, Except.toBool]
    · cases hd : decompress (p.drop (34 + innerNameLen p)) with
      | none => simp [h1, h2, hd, Except.isOk, Except.toBool]
      | some data => simp [h1, h2, hd, Except.isOk, Except.toBool]

/-! ## Integer metrics (`compute_metrics`) -/

/-- Sum of the depth map over all `n` flattened pixels
(`depth_map.sum()` in `embed_bits` / `compute_metrics`). -/
def sumDepth (n : Nat) (depthMap : Nat → Nat) : Nat :=
  ((List.range n).map depthMap).sum

/-- `capacity_bits = int(depth_map.sum() * 3)`. -/
def capacityBits (n : Nat) (depthMap : Nat → Nat) : Nat :=
  sumDepth n depthMap * 3

/-- `capacity_bytes = (capacity_bits // REDUNDANCY) // 8` from
`compute_metrics` (`effective_bits = capacity_bits // REDUNDANCY`). -/
def capacityBytes (n : Nat) (depthMap : Nat → Nat) : Nat :=
  capacityBits n depthMap / REDUNDANCY / 8

/-- `used_bytes = used_bits // 8` from `compute_metrics` (the float fields
`mse`/`psnr` of the `Metrics` record are not modelled). -/
def usedBytesMetric (used_bits : Nat) : Nat :=
  used_bits / 8

/-- **C8.** For every embed, `used_bytes` equals the ceiling of
`used_bits / 8`: the embed endpoint passes `used_bits = len(bits_from_bytes
(header + ciphertext))`, the bit-length of the payload frame, which is
`8 · (frame byte count)`, and on multiples of 8 the source's floor division
`used_bits // 8` coincides with the ceiling `⌈used_bits / 8⌉ = (used_bits + 7) / 8`. -/
theorem used_bytes_is_ceiling (frame : List Nat) :
    usedBytesMetric (bits_from_bytes frame).length
        = ((bits_from_bytes frame).length + 7) / 8 ∧
      (bits_from_bytes frame).length = 8 * frame.length := by
  have hlen : (bits_from_bytes frame).length = 8 * frame.length := by
    unfold bits_from_bytes byteBits
    rw [List.length_flatMap]
    induction frame with
    | nil => simp
    | cons b bs ih => simp_all [Nat.mul_add, Nat.add_comm]
  refine ⟨?_, hlen⟩
  rw [hlen]
  unfold usedBytesMetric
  omega

/-! ## Keyed traversal seed (`seed_from_key`) and the embed engine
(`embed_bits`) -/

/-- A pixel of the flattened image `arr.reshape(-1, 3)`: the three `uint8`
channel values (R, G, B). -/
def Px := Nat × Nat × Nat
deriving DecidableEq, Inhabited

/-- `seed_from_key(passphrase)`: the first 8 bytes of SHA-256 of the
passphrase, interpreted as a big-endian unsigned integer
(`int.from_bytes(digest[:8], "big", signed=False)`). `sha256` abstracts
`hashlib.sha256(...).digest()`, a 32-byte string. -/
def seed_from_key (sha256 : String → List Nat) (passphrase : String) : Nat :=
  ((sha256 passphrase).take 8).foldl (fun a b => 256 * a + b) 0

/-- The inner channel step of `embed_bits`: consume
`take = min(depth, len(encoded_bits) - bit_idx)` bits, pack them MSB-first
(`value = (value << 1) | bit`), and store
`(flat[idx, ch] & ~mask) | value` with `mask = (1 << take) - 1`; on a
`uint8` value `c` and `value < 2^take` that is `c - c % 2^take + value`.
The source's early `return` when the stream is exhausted is the `take = 0`
case, which leaves the channel unchanged. Returns the new channel value and
the remaining bit stream. -/
def embedChannel (c : Nat) (depth : Nat) (bits : List Bool) : Nat × List Bool :=
  let take := min depth bits.length
  let value := (bits.take take).foldl (fun v b => 2 * v + cond b 1 0) 0
  (c - c % 2 ^ take + value, bits.drop take)

/-- One pixel of the embed loop: the three channels in the fixed order
R, G, B (`for ch in range(3)`), threading the remaining bit stream. -/
def embedPixel (px : Px) (depth : Nat) (bits : List Bool) : Px × List Bool :=
  let r := embedChannel px.1 depth bits
  let g := embedChannel px.2.1 depth r.2
  let b := embedChannel px.2.2 depth g.2
  ((r.1, g.1, b.1), b.2)

/-- The pixel loop of `embed_bits` (`for idx in order`): skip pixels with
`depth <= 0` (`continue`), stop and return the image when the stream is
exhausted (the early `return`), otherwise write into the three channels of
`flat[idx]` and recurse on the rest of the traversal order. -/
def embedLoop (depthMap : Nat → Nat) :
    List Px → List Nat → List Bool → List Px
  | flat, [], _ => flat
  | flat, idx :: rest, bits =>
      if depthMap idx ≤ 0 then embedLoop depthMap flat rest bits
      else if bits.isEmpty then flat
      else
        let p := embedPixel (flat.getD idx default) (depthMap idx) bits
        embedLoop depthMap (flat.set idx p.1) rest p.2

/-- `embed_bits(arr, bits, passphrase)`, with the depth map and the shuffled
traversal order as parameters (the source computes them from the image via
`compute_edge_depth_map` and from the passphrase via
`np.random.default_rng(seed_from_key(...)).shuffle(arange(h*w))`):
expand the payload bits by `REDUNDANCY`, raise `CapacityExceeded`
(`"Payload too large for this image."`) up front when the expanded stream
is longer than `depth_map.sum() * 3` — before any pixel is modified —
else run the pixel loop over a copy of the flattened image. -/
def embed_bits (flat : List Px) (depthMap : Nat → Nat) (order : List Nat)
    (bits : List Bool) : Except String (List Px) :=
  let capacity_bits := capacityBits flat.length depthMap
  let encoded_bits := expandRedundancy bits
  if capacity_bits < encoded_bits.length then
    .error "Payload too large for this image."
  else
    .ok (embedLoop depthMap flat order encoded_bits)

/-- `embed_bits` with its traversal order derived from the passphrase as in
the source: `shuffle seed n` abstracts the NumPy PCG64 Fisher-Yates shuffle
of `np.arange(n)` under `np.random.default_rng(seed)`. -/
def embedBitsKeyed (sha256 : String → List Nat) (shuffle : Nat → Nat → List Nat)
    (flat : List Px) (depthMap : Nat → Nat) (bits : List Bool)
    (passphrase : String) : Except String (List Px) :=
  embed_bits flat depthMap
    (shuffle (seed_from_key sha256 passphrase) flat.length) bits

/-! ## The extract engine (`extract_bits`) -/

/-- The inner channel step of `extract_bits`: read
`take = min(depth, len(raw_bits) - bit_idx)` low bits of the channel
(`value = flat[idx, ch] & mask` with `mask = (1 << take) - 1`, i.e.
`c % 2^take`), MSB-first (`np.unpackbits([value])[-take:]` is the list
`[testBit value (take-1), …, testBit value 0]`). `remaining` is
`len(raw_bits) - bit_idx`; the source's early `return` when the buffer is
full is the `take = 0` case, which reads nothing. -/
def extractChannel (c : Nat) (depth : Nat) (remaining : Nat) : List Bool :=
  let take := min depth remaining
  let value := c % 2 ^ take
  (List.range take).reverse.map (fun j => Nat.testBit value j)

/-- One pixel of the extract loop: the three channels in order R, G, B,
each seeing the buffer space left after its predecessors. -/
def extractPixel (px : Px) (depth : Nat) (remaining : Nat) : List Bool :=
  let b1 := extractChannel px.1 depth remaining
  let b2 := extractChannel px.2.1 depth (remaining - b1.length)
  let b3 := extractChannel px.2.2 depth (remaining - b1.length - b2.length)
  b1 ++ (b2 ++ b3)

/-- The pixel loop of `extract_bits`, returning the sequence of raw bits
written into the buffer (the buffer's prefix): skip `depth <= 0` pixels,
otherwise read up to `depth` low bits per channel until `remaining`
reaches 0. -/
def extractLoop (flat : List Px) (depthMap : Nat → Nat) :
    List Nat → Nat → List Bool
  | [], _ => []
  | idx :: rest, remaining =>
      if depthMap idx ≤ 0 then extractLoop flat depthMap rest remaining
      else
        let bs := extractPixel (flat.getD idx default) (depthMap idx) remaining
        bs ++ extractLoop flat depthMap rest (remaining - bs.length)

/-- The raw-bit buffer of `extract_bits`:
`raw_bits = np.zeros(total_bits * REDUNDANCY)` whose prefix is overwritten
sequentially by the pixel loop — i.e. the collected bits followed by the
zeros the loop never reached. -/
def extractRaw (flat : List Px) (depthMap : Nat → Nat) (order : List Nat)
    (totalRaw : Nat) : List Bool :=
  let collected := extractLoop flat depthMap order totalRaw
  collected ++ List.replicate (totalRaw - collected.length) false

/-- `extract_bits(arr, total_bits, passphrase)` with depth map and traversal
order as parameters (as for `embed_bits`): fill the
`total_bits * REDUNDANCY` raw buffer along the keyed order and decode the
redundancy by majority vote. -/
def extract_bits (flat : List Px) (depthMap : Nat → Nat) (order : List Nat)
    (total_bits : Nat) : List Bool :=
  decode_redundancy (extractRaw flat depthMap order (total_bits * REDUNDANCY))

/-! ## Claim theorems about the engine -/

theorem expandRedundancy_length (bits : List Bool) :
    (expandRedundancy bits).length = 3 * bits.length := by
  induction bits with
  | nil => rfl
  | cons b bs ih =>
      have : expandRedundancy (b :: bs) = b :: b :: b :: expandRedundancy bs := by
        simp [expandRedundancy, REDUNDANCY, List.replicate]
      rw [this]
      simp [ih]
      omega

/-- **C2.** Capacity check: `embed_bits` fails with `CapacityExceeded`
exactly when the redundancy-expanded stream is longer than
`depth_map.sum() * 3` (the check precedes the pixel loop, so the error
branch returns no image and no pixel is modified); a payload of exactly
`capacity_bytes` bytes (`8 * capacity_bytes` bits) succeeds and one of
`capacity_bytes + 1` bytes fails with `CapacityExceeded`. -/
theorem capacity_check_boundary (flat : List Px) (depthMap : Nat → Nat)
    (order : List Nat) (bits bits' : List Bool)
    (hAt : bits.length = 8 * capacityBytes flat.length depthMap)
    (hOver : bits'.length = 8 * (capacityBytes flat.length depthMap + 1)) :
    (∀ bs : List Bool,
        embed_bits flat depthMap order bs
            = .error "Payload too large for this image."
          ↔ sumDepth flat.length depthMap * 3 < (expandRedundancy bs).length) ∧
      (embed_bits flat depthMap order bits).isOk = true ∧
      embed_bits flat depthMap order bits'
        = .error "Payload too large for this image." := by
  have hiff : ∀ bs : List Bool,
      embed_bits flat depthMap order bs
          = .error "Payload too large for this image."
        ↔ sumDepth flat.length depthMap * 3 < (expandRedundancy bs).length := by
    intro bs
    unfold embed_bits capacityBits
    dsimp only
    split
    next hc => exact ⟨fun _ => hc, fun _ => rfl⟩
    next hc => exact ⟨fun h => Except.noConfusion h, fun h => absurd h hc⟩
  refine ⟨hiff, ?_, ?_⟩
  · have hcap : ¬ sumDepth flat.length depthMap * 3
        < (expandRedundancy bits).length := by
      rw [expandRedundancy_length, hAt]
      unfold capacityBytes capacityBits REDUNDANCY
      omega
    unfold embed_bits capacityBits
    rw [if_neg (by rw [expandRedundancy_length] at hcap ⊢; omega)]
    rfl
  · rw [hiff, expandRedundancy_length, hOver]
    unfold capacityBytes capacityBits REDUNDANCY
    omega

/-- Witness for C2 on a concrete 8-pixel image with depth 1 everywhere:
`capacity_bytes = 1`, so an 8-bit payload embeds and a 16-bit payload is
rejected with `CapacityExceeded`. -/
theorem capacity_check_boundary_witness :
    (embed_bits (List.replicate 8 ((0, 0, 0) : Px)) (fun _ => 1)
        (List.range 8) (List.replicate 8 true)).isOk = true ∧
      embed_bits (List.replicate 8 ((0, 0, 0) : Px)) (fun _ => 1)
        (List.range 8) (List.replicate 16 true)
        = .error "Payload too large for this image." := by
  have h := capacity_check_boundary (List.replicate 8 ((0, 0, 0) : Px))
    (fun _ => 1) (List.range 8) (List.replicate 8 true)
    (List.replicate 16 true) (by decide) (by decide)
  exact ⟨h.2.1, h.2.2⟩

/-- **C3.** Determinism of the embedding engine: `embed_bits` (with the
per-embed random salt and nonce outside it) is a pure function whose
dependence on the passphrase goes only through `seed_from_key` — two
passphrases with the same seed give bit-identical stego arrays — and the
seed is exactly the first 8 bytes of SHA-256 of the passphrase folded
big-endian into an unsigned integer. -/
theorem embed_bits_deterministic (sha256 : String → List Nat)
    (shuffle : Nat → Nat → List Nat) (flat : List Px) (depthMap : Nat → Nat)
    (bits : List Bool) (p p' : String)
    (h : seed_from_key sha256 p = seed_from_key sha256 p') :
    embedBitsKeyed sha256 shuffle flat depthMap bits p
        = embedBitsKeyed sha256 shuffle flat depthMap bits p' ∧
      seed_from_key sha256 p
        = ((sha256 p).take 8).foldl (fun a b => 256 * a + b) 0 := by
  constructor
  · unfold embedBitsKeyed
    rw [h]
  · rfl

/-- Witness for C3: with a concrete hash function that collides on `"abc"`
and `"abd"`, the two embeds agree bit for bit. -/
theorem embed_bits_deterministic_witness :
    embedBitsKeyed (fun _ => List.replicate 32 7) (fun _ n => List.range n)
        [((1, 2, 3) : Px)] (fun _ => 1) [true] "abc"
      = embedBitsKeyed (fun _ => List.replicate 32 7) (fun _ n => List.range n)
        [((1, 2, 3) : Px)] (fun _ => 1) [true] "abd" :=
  (embed_bits_deterministic (fun _ => List.replicate 32 7)
    (fun _ n => List.range n) [((1, 2, 3) : Px)] (fun _ => 1) [true]
    "abc" "abd" rfl).1

theorem extractChannel_length (c depth remaining : Nat) :
    (extractChannel c depth remaining).length = min depth remaining := by
  simp [extractChannel]

theorem extractPixel_length_le (px : Px) (d r : Nat) :
    (extractPixel px d r).length ≤ r := by
  simp only [extractPixel, List.length_append, extractChannel_length]
  omega

theorem extractLoop_length_le (flat : List Px) (depthMap : Nat → Nat) :
    ∀ (order : List Nat) (remaining : Nat),
      (extractLoop flat depthMap order remaining).length ≤ remaining := by
  intro order
  induction order with
  | nil => intro r; simp [extractLoop]
  | cons idx rest ih =>
      intro r
      rw [extractLoop]
      split
      · exact ih r
      · have h1 := extractPixel_length_le (flat.getD idx default) (depthMap idx) r
        have h2 := ih (r - (extractPixel (flat.getD idx default)
          (depthMap idx) r).length)
        simp only [List.length_append]
        omega

theorem decode_redundancy_length : ∀ l : List Bool,
    (decode_redundancy l).length = l.length / 3
  | [] => rfl
  | [_] => by simp [decode_redundancy]
  | [_, _] => by simp [decode_redundancy]
  | x :: y :: z :: rest => by
      have ih := decode_redundancy_length rest
      simp [decode_redundancy, ih]
      omega

theorem extractRaw_length (flat : List Px) (depthMap : Nat → Nat)
    (order : List Nat) (totalRaw : Nat) :
    (extractRaw flat depthMap order totalRaw).length = totalRaw := by
  have h := extractLoop_length_le flat depthMap order totalRaw
  simp only [extractRaw, List.length_append, List.length_replicate]
  omega

theorem getD_replicate (α : Type) (k j : Nat) (d : α) :
    (List.replicate k d).getD j d = d := by
  induction k generalizing j with
  | zero => cases j <;> rfl
  | succ n ih => cases j <;> simp [List.replicate, List.getD, ih]

theorem getD_append_right (α : Type) (l l' : List α) (j : Nat) (d : α)
    (h : l.length ≤ j) : (l ++ l').getD j d = l'.getD (j - l.length) d := by
  induction l generalizing j with
  | nil => simp
  | cons a as ih =>
      cases j with
      | zero => simp at h
      | succ m =>
          simp only [List.cons_append, List.length_cons]
          have := ih m (by simpa using h)
          simpa [List.getD] using this

/-- **C10.** Totality of extraction: for every image, depth map produced by
`compute_edge_depth_map`, traversal order and requested bit count `N`,
`extract_bits` returns exactly `N` decoded bits (it is a total function:
no branch raises), and every raw-buffer position at or past the prefix the
pixel loop filled still holds the 0 the buffer was initialized with — an
under-capacity image yields a deterministic zero-padded result. -/
theorem extract_bits_total_and_zero_padded (norm : Nat → ℚ) (flat : List Px)
    (order : List Nat) (N : Nat) :
    (extract_bits flat (compute_edge_depth_map norm) order N).length = N ∧
      ∀ j, (extractLoop flat (compute_edge_depth_map norm) order
            (N * REDUNDANCY)).length ≤ j →
        (extractRaw flat (compute_edge_depth_map norm) order
            (N * REDUNDANCY)).getD j false = false := by
  constructor
  · unfold extract_bits
    rw [decode_redundancy_length, extractRaw_length]
    unfold REDUNDANCY
    omega
  · intro j hj
    unfold extractRaw
    rw [getD_append_right Bool _ _ j false hj, getD_replicate]

/-- Witness for C10 on a concrete single-pixel image asked for `N = 2`
bits: the pixel supplies only 3 of the 6 raw positions, and position 5 of
the raw buffer is still 0. -/
theorem extract_bits_total_and_zero_padded_witness :
    (extract_bits [((1, 2, 3) : Px)]
        (compute_edge_depth_map (fun _ => 0)) [0] 2).length = 2 ∧
      (extractRaw [((1, 2, 3) : Px)] (compute_edge_depth_map (fun _ => 0))
          [0] (2 * REDUNDANCY)).getD 5 false = false := by
  have hdm : compute_edge_depth_map (fun _ => (0 : ℚ)) = fun _ => 1 :=
    funext fun _ => if_neg (by norm_num)
  have h := extract_bits_total_and_zero_padded (fun _ => 0)
    [((1, 2, 3) : Px)] [0] 2
  refine ⟨h.1, h.2 5 ?_⟩
  rw [hdm]
  decide

theorem packValue_lt (bits : List Bool) :
    ∀ v : Nat,
      bits.foldl (fun v b => 2 * v + cond b 1 0) v < (v + 1) * 2 ^ bits.length := by
  induction bits with
  | nil => intro v; simp
  | cons b bs ih =>
      intro v
      simp only [List.foldl_cons, List.length_cons]
      have h := ih (2 * v + cond b 1 0)
      have hle : (2 * v + cond b 1 0 + 1) * 2 ^ bs.length
          ≤ (v + 1) * 2 ^ (bs.length + 1) := by
        have hb : 2 * v + cond b 1 0 + 1 ≤ 2 * (v + 1) := by
          cases b <;> simp <;> omega
        calc (2 * v + cond b 1 0 + 1) * 2 ^ bs.length
            ≤ 2 * (v + 1) * 2 ^ bs.length := Nat.mul_le_mul_right _ hb
          _ = (v + 1) * 2 ^ (bs.length + 1) := by ring
      exact lt_of_lt_of_le h hle

theorem clear_low_div (c value k t : Nat) (hv : value < 2 ^ k) (hkt : k ≤ t) :
    (c - c % 2 ^ k + value) / 2 ^ t = c / 2 ^ t := by
  obtain ⟨m, rfl⟩ : ∃ m, t = k + m := ⟨t - k, by omega⟩
  have hpos : 0 < 2 ^ k := Nat.pos_pow_of_pos k (by norm_num)
  have hsub : c - c % 2 ^ k = 2 ^ k * (c / 2 ^ k) := by
    have h1 := Nat.mod_add_div c (2 ^ k)
    omega
  rw [pow_add, ← Nat.div_div_eq_div_mul, ← Nat.div_div_eq_div_mul, hsub]
  congr 1
  rw [Nat.mul_add_div hpos, Nat.div_eq_of_lt hv]
  omega

theorem embedChannel_fst_div (c depth t : Nat) (bits : List Bool)
    (h : depth ≤ t) :
    (embedChannel c depth bits).1 / 2 ^ t = c / 2 ^ t := by
  unfold embedChannel
  dsimp only
  apply clear_low_div
  · have hp := packValue_lt (bits.take (min depth bits.length)) 0
    have hlen : (bits.take (min depth bits.length)).length
        = min depth bits.length := by
      rw [List.length_take]; omega
    rw [hlen] at hp
    simpa using hp
  · exact le_trans (min_le_left _ _) h

theorem embedPixel_fst_div (px : Px) (depth : Nat) (bits : List Bool) :
    ((embedPixel px depth bits).1.1 / 2 ^ depth = px.1 / 2 ^ depth) ∧
      ((embedPixel px depth bits).1.2.1 / 2 ^ depth = px.2.1 / 2 ^ depth) ∧
      ((embedPixel px depth bits).1.2.2 / 2 ^ depth = px.2.2 / 2 ^ depth) := by
  unfold embedPixel
  exact ⟨embedChannel_fst_div _ _ _ _ (le_refl _),
    embedChannel_fst_div _ _ _ _ (le_refl _),
    embedChannel_fst_div _ _ _ _ (le_refl _)⟩

theorem getD_set_ne (α : Type) (l : List α) (i j : Nat) (a d : α)
    (h : i ≠ j) : (l.set i a).getD j d = l.getD j d := by
  induction l generalizing i j with
  | nil => simp
  | cons x xs ih =>
      cases i with
      | zero =>
          cases j with
          | zero => exact absurd rfl h
          | succ m => simp [List.set]
      | succ n =>
          cases j with
          | zero => simp [List.set]
          | succ m =>
              simp only [List.set, List.getD_cons_succ]
              exact ih n m (fun hh => h (by omega))

theorem getD_set_self (α : Type) (l : List α) (i : Nat) (a d : α)
    (h : i < l.length) : (l.set i a).getD i d = a := by
  induction l generalizing i with
  | nil => simp at h
  | cons x xs ih =>
      cases i with
      | zero => rfl
      | succ n =>
          simp only [List.set, List.getD_cons_succ]
          exact ih n (by simpa using h)

theorem set_of_length_le (α : Type) (l : List α) (i : Nat) (a : α)
    (h : l.length ≤ i) : l.set i a = l := by
  induction l generalizing i with
  | nil => rfl
  | cons x xs ih =>
      cases i with
      | zero => simp at h
      | succ n => simp [List.set, ih n (by simpa using h)]

theorem embedLoop_getD_div (depthMap : Nat → Nat) :
    ∀ (order : List Nat) (flat : List Px) (bits : List Bool) (i : Nat),
      ((embedLoop depthMap flat order bits).getD i default).1 / 2 ^ depthMap i
          = ((flat.getD i default).1 / 2 ^ depthMap i) ∧
        ((embedLoop depthMap flat order bits).getD i default).2.1 / 2 ^ depthMap i
          = ((flat.getD i default).2.1 / 2 ^ depthMap i) ∧
        ((embedLoop depthMap flat order bits).getD i default).2.2 / 2 ^ depthMap i
          = ((flat.getD i default).2.2 / 2 ^ depthMap i) := by
  intro order
  induction order with
  | nil =>
      intro flat bits i
      exact ⟨rfl, rfl, rfl⟩
  | cons idx rest ih =>
      intro flat bits i
      simp only [embedLoop]
      split
      · exact ih flat bits i
      · split
        · exact ⟨rfl, rfl, rfl⟩
        · set px' := embedPixel (flat.getD idx default) (depthMap idx) bits
            with hpx'
          have hstep := ih (flat.set idx px'.1) px'.2 i
          by_cases hij : idx = i
          · subst hij
            by_cases hlen : idx < flat.length
            · have hset := getD_set_self Px flat idx px'.1 default hlen
              have hpx := embedPixel_fst_div (flat.getD idx default)
                (depthMap idx) bits
              rw [hset] at hstep
              rw [← hpx'] at hpx
              exact ⟨hstep.1.trans hpx.1, hstep.2.1.trans hpx.2.1,
                hstep.2.2.trans hpx.2.2⟩
            · rw [set_of_length_le Px flat idx px'.1 (by omega)]
              exact ih flat px'.2 idx
          · have hset := getD_set_ne Px flat idx i px'.1 default hij
            rw [hset] at hstep
            exact hstep

/-- **C6.** Frame property of embedding: whenever `embed_bits` succeeds,
every channel value of the stego image agrees with the cover on all bits
above bit position `depth[pixel] - 1` (their quotients by
`2 ^ depth[pixel]` are equal), and the depth from `compute_edge_depth_map`
is at most 2 — so the stego image differs from the cover only in the low
`take ≤ depth ≤ 2` bits of the visited channels. -/
theorem embed_frame_property (norm : Nat → ℚ) (flat : List Px)
    (order : List Nat) (bits : List Bool) (stego : List Px)
    (h : embed_bits flat (compute_edge_depth_map norm) order bits = .ok stego)
    (i : Nat) :
    compute_edge_depth_map norm i ≤ 2 ∧
      (stego.getD i default).1 / 2 ^ compute_edge_depth_map norm i
          = (flat.getD i default).1 / 2 ^ compute_edge_depth_map norm i ∧
      (stego.getD i default).2.1 / 2 ^ compute_edge_depth_map norm i
          = (flat.getD i default).2.1 / 2 ^ compute_edge_depth_map norm i ∧
      (stego.getD i default).2.2 / 2 ^ compute_edge_depth_map norm i
          = (flat.getD i default).2.2 / 2 ^ compute_edge_depth_map norm i := by
  have hstego : stego
      = embedLoop (compute_edge_depth_map norm) flat order
          (expandRedundancy bits) := by
    unfold embed_bits at h
    dsimp only at h
    split at h
    · exact Except.noConfusion h
    · injection h with h'
      exact h'.symm
  subst hstego
  refine ⟨?_, embedLoop_getD_div _ order flat _ i⟩
  unfold compute_edge_depth_map
  split <;> omega

/-- Witness for C6: embedding one bit into the all-zero single-pixel image
(depth 1 everywhere) yields the pixel `(1, 1, 1)`, which agrees with the
cover above bit 0. -/
theorem embed_frame_property_witness :
    compute_edge_depth_map (fun _ => (0 : ℚ)) 0 ≤ 2 ∧
      (([((1, 1, 1) : Px)].getD 0 default).1
            / 2 ^ compute_edge_depth_map (fun _ => (0 : ℚ)) 0
          = ([((0, 0, 0) : Px)].getD 0 default).1
            / 2 ^ compute_edge_depth_map (fun _ => (0 : ℚ)) 0) ∧
      (([((1, 1, 1) : Px)].getD 0 default).2.1
            / 2 ^ compute_edge_depth_map (fun _ => (0 : ℚ)) 0
          = ([((0, 0, 0) : Px)].getD 0 default).2.1
            / 2 ^ compute_edge_depth_map (fun _ => (0 : ℚ)) 0) ∧
      (([((1, 1, 1) : Px)].getD 0 default).2.2
            / 2 ^ compute_edge_depth_map (fun _ => (0 : ℚ)) 0
          = ([((0, 0, 0) : Px)].getD 0 default).2.2
            / 2 ^ compute_edge_depth_map (fun _ => (0 : ℚ)) 0) := by
  have hdm : compute_edge_depth_map (fun _ => (0 : ℚ)) = fun _ => 1 :=
    funext fun _ => if_neg (by norm_num)
  have h : embed_bits [((0, 0, 0) : Px)] (compute_edge_depth_map (fun _ => 0))
      [0] [true] = .ok [((1, 1, 1) : Px)] := by
    rw [hdm]
    rfl
  exact embed_frame_property (fun _ => 0) [((0, 0, 0) : Px)] [0] [true]
    [((1, 1, 1) : Px)] h 0

/-! ## Steganalysis scorer (`detect_steg`): the constant-LSB input -/

/-- The LSB plane of one flattened channel, `(ch & 1).flatten()`. -/
def lsbPlane (chan : List Nat) : List Nat :=
  chan.map (fun c => c % 2)

/-- One flattened channel of a uniform white image: `n` samples of 255. -/
def whiteChannel (n : Nat) : List Nat :=
  List.replicate n 255

/-- Modelled from the library call `np.corrcoef(lsb[:-1], lsb[1:])` inside
`detect_steg`: the variance term `Σ (xᵢ - mean x)²` under the square root
of the Pearson denominator, in exact rational arithmetic. `np.corrcoef`
divides by the square root of the product of the two variance terms, so a
zero value here makes the correlation a `0/0` — `NaN` in IEEE floats. -/
def corrcoefDenomTerm (xs : List ℚ) : ℚ :=
  (xs.map (fun v => (v - xs.sum / xs.length) ^ 2)).sum

/-- **C9** (failing-input evaluation). On a uniform white 2×2 image every
LSB is 1, and the variance term of the Pearson denominator that
`detect_steg` feeds to `np.corrcoef` over the successive-LSB sequence
`lsb[:-1]` is exactly 0: the correlation is computed as `0/0` (`NaN` in
floats), so the score `0.55·entropy + 0.25·(1/(1+chi)) + 0.20·(1 − NaN)`
is `NaN`, not a value in `[0, 1]`. -/
theorem detect_steg_corrcoef_denominator_zero :
    lsbPlane (whiteChannel 4) = [1, 1, 1, 1] ∧
      corrcoefDenomTerm
          (((lsbPlane (whiteChannel 4)).dropLast).map (fun v => (v : ℚ)))
        = 0 := by
  constructor
  · rfl
  · show corrcoefDenomTerm [(1 : ℚ), 1, 1] = 0
    norm_num [corrcoefDenomTerm]

end Steg
